import Mathlib

/-!
Shallow embedding of ptypes/dynamic.py (the dynamic type factories, the union
overlay, and the pointer builders) together with proofs about the embedded
operations.

The module under verification is Python 2 code.  Pure functions are embedded
as Lean functions; the implicit logging side effects are made explicit by
returning a list of log events; exceptions are embedded with Except.
External collaborators (ptype, parray, provider, error, config, pint) are not
part of the repository sources; where their behaviour matters it is modelled
from the specification and marked as such in the doc comment.
-/

namespace Ptypes

/-- Exceptions that the embedded code can signal.
userError embeds error.UserError (the InvalidArgument of the spec),
keyError embeds a Python KeyError raised by a failing dict lookup,
valueError embeds the ValueError raised by Python max() on an empty sequence,
indexError embeds the IndexError raised by indexing an empty list. -/
inductive PErr where
  | userError : PErr
  | keyError : String → PErr
  | valueError : PErr
  | indexError : PErr
  deriving Repr, DecidableEq

/-- Log records emitted by the code, one constructor per logging call site
in dynamic.py (identified by the function and the condition). -/
inductive LogEvent where
  | errorClampBlock : LogEvent      -- Log.error in block(), size < 0
  | errorClampArray : LogEvent      -- Log.error in array(), count < 0
  | fatalMaxCount : LogEvent        -- Log.fatal in array(), count over maximum
  | warnMaxCount : LogEvent         -- Log.warn in array(), count over maximum
  | warningGetitem : LogEvent       -- Log.warning in union.__getitem__
  deriving Repr, DecidableEq

/-- A Python float, modelled as the dyadic rational mant / 2 ^ prec
(every IEEE double that is not a special value has this form). -/
structure PyFloat where
  mant : Int
  prec : Nat
  deriving Repr, DecidableEq

/-- An argument value passed to one of the factory functions: either a
Python int or a Python float (a non-integer as far as isinstance checks
on six.integer_types are concerned). -/
inductive PyVal where
  | vint : Int → PyVal
  | vfloat : PyFloat → PyVal
  deriving Repr, DecidableEq

/-- Python int(x): the identity on ints; floats are truncated toward zero. -/
def pyInt : PyVal → Int
  | .vint n => n
  | .vfloat f => Int.tdiv f.mant (2 ^ f.prec)

/-- Python isinstance(x, six.integer_types). -/
def isIntegral : PyVal → Bool
  | .vint _ => true
  | .vfloat _ => false

/-- Type descriptors for the fixed-size types that appear in the claims.
pblock embeds ptype.block with a given length, puint embeds the pint
fixed-width unsigned integer types (by byte width), and parrayT embeds
parray.type with a given element type and length. -/
inductive TypeDescr where
  | pblock : Nat → TypeDescr
  | puint : Nat → TypeDescr
  | parrayT : TypeDescr → Nat → TypeDescr
  deriving Repr, DecidableEq

/-- Modelled from the spec: the external structural engine gives every
fixed-size type a blocksize — a block reports its configured length, a
fixed-width integer its byte width, and an array its element count times
the element blocksize.  (spec section 6, and section 8 testable properties;
the engine itself lives outside this repository.) -/
def TypeDescr.blocksize : TypeDescr → Nat
  | .pblock n => n
  | .puint n => n
  | .parrayT t n => n * t.blocksize

/-- Modelled from the spec: pint.uint8_t is one byte wide. -/
def uint8_t : TypeDescr := .puint 1

/-- Modelled from the spec: pint.uint16_t is two bytes wide. -/
def uint16_t : TypeDescr := .puint 2

/-- Modelled from the spec: pint.uint32_t is four bytes wide. -/
def uint32_t : TypeDescr := .puint 4

/-- dynamic.block(size): a non-integral size raises error.UserError; a
negative size logs with Log.error and is clamped to zero; the result is a
clone of ptype.block with the validated size as its length. -/
def block (size : PyVal) : List LogEvent × Except PErr TypeDescr :=
  if (isIntegral size) = false then
    ([], .error .userError)
  else
    match size with
    | .vfloat _ => ([], .error .userError)
    | .vint n =>
      if n < 0 then ([.errorClampBlock], .ok (.pblock 0))
      else ([], .ok (.pblock n.toNat))

/-- The recognised configuration options (config.defaults.parray):
max_count and break_on_max_count, consulted by dynamic.array. -/
structure Config where
  maxCount : Int
  breakOnMaxCount : Bool
  deriving Repr, DecidableEq

/-- dynamic.array(type, count): the code first coerces with int(count) —
so the isinstance integrality check on the following line can never fire
and a float count is silently truncated — then clamps a negative count to
zero with a Log.error, then applies the configured maximum-count guard
(Log.fatal and error.UserError when break_on_max_count is set, Log.warn
and continue otherwise), and finally clones parray.type with the element
type and the resulting length. -/
def array (cfg : Config) (t : TypeDescr) (count : PyVal) : List LogEvent × Except PErr TypeDescr :=
  let n : Int := pyInt count
  -- line 172 of dynamic.py re-checks isinstance on the result of int();
  -- after the coercion the check is always satisfied, so no error here.
  let clamped : Nat × List LogEvent :=
    if n < 0 then (0, [.errorClampArray]) else (n.toNat, [])
  let n2 := clamped.1
  if 0 < cfg.maxCount ∧ cfg.maxCount < (n2 : Int) then
    if cfg.breakOnMaxCount then
      (clamped.2 ++ [.fatalMaxCount], .error .userError)
    else
      (clamped.2 ++ [.warnMaxCount], .ok (.parrayT t n2))
  else
    (clamped.2, .ok (.parrayT t n2))

/-- The containment context of an align element: the offset of the parent
container (parent.getoffset()), the blocksizes of the children of that
container (parent.value), and the position of the align element among
those children (none when the element does not occur in parent.value). -/
structure AlignCtx where
  parentOffset : Nat
  siblings : List Nat
  selfIdx : Option Nat
  deriving Repr, DecidableEq

/-- The blocksize method that dynamic.align installs on the padding type:
zero when the element has no parent or does not occur among the children
of the parent; otherwise (-offset) & (size - 1), where offset is the
parent offset plus the blocksizes of the children preceding the element,
and & is the twos-complement bitwise conjunction of Python (Int.land). -/
def alignBlocksize (size : Int) (ctx : Option AlignCtx) : Int :=
  match ctx with
  | none => 0
  | some c =>
    match c.selfIdx with
    | none => 0
    | some idx =>
      let offset : Nat := c.parentOffset + (c.siblings.take idx).sum
      Int.land (-(offset : Int)) (size - 1)

/-- dynamic.align(size): a non-integral size raises error.UserError,
otherwise the returned padding type carries the dynamic blocksize method
above (the undefined variant installs the same method). -/
def align (size : PyVal) : Except PErr (Option AlignCtx → Int) :=
  match size with
  | .vfloat _ => .error .userError
  | .vint n => .ok (alignBlocksize n)

/-- Auxiliary arithmetic: reducing 2 * a + c modulo P * 2 reduces a
modulo P on the low bits and keeps the parity bit c. -/
theorem two_mul_add_mod (P a c : Nat) (hP : 0 < P) (hc : c < 2) :
    (2 * a + c) % (P * 2) = 2 * (a % P) + c := by
  have h1 : 2 * a + c = P * 2 * (a / P) + (2 * (a % P) + c) := by
    have h2 := Nat.div_add_mod a P
    calc 2 * a + c = 2 * (P * (a / P) + a % P) + c := by rw [h2]
      _ = P * 2 * (a / P) + (2 * (a % P) + c) := by ring
  rw [h1, Nat.mul_add_mod]
  have h3 : a % P < P := Nat.mod_lt _ hP
  exact Nat.mod_eq_of_lt (by omega)

/-- Key bitwise fact: clearing from an all-ones mask 2 ^ k - 1 the bits of
n leaves the complement of n modulo 2 ^ k. -/
theorem ldiff_mask (k : Nat) : ∀ n : Nat, Nat.ldiff (2 ^ k - 1) n = (2 ^ k - 1) - n % 2 ^ k := by
  induction k with
  | zero =>
    intro n
    have h0 : 2 ^ 0 - 1 = 0 := rfl
    rw [h0]
    unfold Nat.ldiff
    rw [Nat.bitwise_zero_left]
    simp
  | succ k ih =>
    intro n
    have hpow : 0 < 2 ^ k := by positivity
    have hmask : 2 ^ (k + 1) - 1 = Nat.bit true (2 ^ k - 1) := by
      rw [Nat.bit_val, pow_succ]
      simp
      omega
    have hstep : Nat.ldiff (2 ^ (k + 1) - 1) n =
        Nat.bit (!n.bodd) (Nat.ldiff (2 ^ k - 1) n.div2) := by
      conv_lhs => rw [hmask, ← Nat.bit_decomp n]
      unfold Nat.ldiff
      rw [Nat.bitwise_bit]
      simp
    have hmod : n % 2 ^ (k + 1) = 2 * (n.div2 % 2 ^ k) + n.bodd.toNat := by
      conv_lhs => rw [← Nat.bit_decomp n, Nat.bit_val]
      rw [pow_succ]
      exact two_mul_add_mod (2 ^ k) n.div2 n.bodd.toNat hpow (by cases n.bodd <;> decide)
    rw [hstep, Nat.bit_val, ih n.div2, hmod, hmask, Nat.bit_val]
    have h3 : n.div2 % 2 ^ k < 2 ^ k := Nat.mod_lt _ hpow
    cases n.bodd <;> simp <;> omega

/-- The euclidean remainder of a negated successor by a power of two,
expressed with natural subtraction. -/
theorem negSucc_emod_two_pow (k n : Nat) :
    Int.negSucc n % ((2 : Int) ^ k) = ((2 ^ k - 1 - n % 2 ^ k : Nat) : Int) := by
  have hpow : 0 < 2 ^ k := by positivity
  have hlt : n % 2 ^ k < 2 ^ k := Nat.mod_lt _ hpow
  have hcast : ((2 ^ k - 1 - n % 2 ^ k : Nat) : Int) = (2 : Int) ^ k - 1 - (n % 2 ^ k : Nat) := by
    have hle : n % 2 ^ k ≤ 2 ^ k - 1 := by omega
    push_cast [Nat.cast_sub hle, Nat.cast_sub hpow]
    ring
  obtain ⟨q, r, hn, hr⟩ : ∃ q r, n = 2 ^ k * q + r ∧ r < 2 ^ k :=
    ⟨n / 2 ^ k, n % 2 ^ k, ((Nat.div_add_mod n (2 ^ k)).symm), Nat.mod_lt _ hpow⟩
  have hnr : n % 2 ^ k = r := by
    rw [hn, Nat.mul_add_mod, Nat.mod_eq_of_lt hr]
  have h2 : Int.negSucc n % (2 : Int) ^ k =
      ((2 ^ k - 1 - n % 2 ^ k : Nat) : Int) % (2 : Int) ^ k := by
    rw [Int.emod_eq_emod_iff_emod_sub_eq_zero, Int.negSucc_eq, hcast, hnr, hn]
    have he : (-(((2 ^ k * q + r : Nat) : Int) + 1) - ((2 : Int) ^ k - 1 - (r : Nat))) =
        (2 : Int) ^ k * (-(q : Int) - 1) := by
      push_cast
      ring
    rw [he]
    exact Int.mul_emod_right _ _
  rw [h2, hcast]
  exact Int.emod_eq_of_lt (by push_cast [hnr]; omega) (by push_cast [hnr]; omega)

/-- The Python expression (-o) & (2 ^ k - 1) is exactly the euclidean remainder of -o
by 2 ^ k. -/
theorem land_neg_mask (k o : Nat) :
    Int.land (-(o : Int)) ((2 : Int) ^ k - 1) = (-(o : Int)) % ((2 : Int) ^ k) := by
  have hpow : 0 < 2 ^ k := by positivity
  have hcast : ((2 : Int) ^ k - 1) = ((2 ^ k - 1 : Nat) : Int) := by
    push_cast [Nat.cast_sub hpow]
    ring
  match o with
  | 0 =>
    rw [hcast]
    show (Int.ofNat (Nat.land 0 (2 ^ k - 1))) = (-(0 : Int)) % ((2 : Int) ^ k)
    have hz : Nat.land 0 (2 ^ k - 1) = 0 := Nat.zero_and _
    rw [hz]
    simp
  | Nat.succ m =>
    have hneg : -((Nat.succ m : Nat) : Int) = Int.negSucc m := rfl
    rw [hcast, hneg]
    show (Int.ofNat (Nat.ldiff (2 ^ k - 1) m)) = Int.negSucc m % ((2 : Int) ^ k)
    rw [negSucc_emod_two_pow, ldiff_mask]
    rfl

/-- One union field declaration, an entry of the class attribute _fields_:
a type and a name. -/
structure Field where
  ty : TypeDescr
  name : String
  deriving Repr, DecidableEq

/-- The class-level configuration of a dynamic.union subclass: the
optional explicit root type _value_ and the field list _fields_. -/
structure UnionClass where
  value_ : Option TypeDescr
  fields_ : List Field
  deriving Repr, DecidableEq

/-- An instantiated view (the root object or one of the aliases): its
type, its __name__, and whether its contents have been loaded. -/
structure Alias where
  ty : TypeDescr
  name : String
  loaded : Bool
  deriving Repr, DecidableEq

/-- The mutable state of a union instance: self.value (a one-element list
holding the root object, or None), self.__object__ (the list of aliases,
or None), and the name lookup table self.__fastindex (a Python dict,
embedded as an insertion-ordered association list with unique keys). -/
structure UnionState where
  cls : UnionClass
  value : Option Alias
  objects : Option (List Alias)
  fastindex : List (String × Nat)
  deriving Repr, DecidableEq

/-- The state of a freshly constructed union instance: __init__ leaves
self.value and self.__object__ as None and sets self.__fastindex to the
empty dict. -/
def initUnion (cls : UnionClass) : UnionState :=
  { cls := cls, value := none, objects := none, fastindex := [] }

/-- The environment deciding the outcome of the external load calls: does
the root object load successfully, and does the lazy load of alias i
succeed.  Load failures surface as error.UserError. -/
structure Env where
  rootOk : Bool
  aliasOk : Nat → Bool

/-- Observable events of a union materialization, used to state the
ordering guarantees. -/
inductive Event where
  | rootCreated : TypeDescr → Event
  | rootLoaded : Event
  | rootAlloc : Event
  | aliasLoaded : Nat → String → Event
  deriving Repr, DecidableEq

/-- Python str.lower(), embedded character by character. -/
def pyLower (s : String) : String := ⟨s.data.map Char.toLower⟩

/-- Assignment d[k] = v on a Python dict: overwrite the entry holding the
key when one is present (keys are unique), append a new entry otherwise. -/
def dictInsert : List (String × Nat) → String → Nat → List (String × Nat)
  | [], k, v => [(k, v)]
  | p :: rest, k, v => if p.1 == k then (k, v) :: rest else p :: dictInsert rest k v

/-- Lookup d[k] on a Python dict, as an Option. -/
def dictGet (d : List (String × Nat)) (k : String) : Option Nat :=
  (d.find? (fun p => p.1 == k)).map (fun p => p.2)

/-- Python max() over a sequence of naturals: raises ValueError on an
empty sequence. -/
def pyMax : List Nat → Except PErr Nat
  | [] => .error .valueError
  | x :: xs => .ok (xs.foldl Nat.max x)

/-- union.__choose__: the explicit root type _value_ when one is declared,
otherwise a clone of ptype.block whose length is the maximum blocksize
obtained by instantiating (and allocating) each field type once. -/
def choose (cls : UnionClass) : Except PErr TypeDescr :=
  match cls.value_ with
  | some r => .ok r
  | none =>
    (pyMax (cls.fields_.map (fun f => f.ty.blocksize))).map (fun n => .pblock n)

/-- _union_generic.__append__: record the alias at the end of __object__
and map its lowercased name to its index in the lookup table. -/
def uappend (s : UnionState) (a : Alias) : UnionState × Nat :=
  let objs := s.objects.getD []
  let current := objs.length
  ({ s with objects := some (objs ++ [a]),
            fastindex := dictInsert s.fastindex (pyLower a.name) current }, current)

/-- Append each alias in order with __append__. -/
def appendAll (s : UnionState) : List Alias → UnionState
  | [] => s
  | a :: rest => appendAll (uappend s a).1 rest

/-- union.__create__: choose the root type, instantiate the root object
at the offset of the union, store it in self.value, then instantiate one alias
per field against the proxy at offset zero (unloaded) and register it.
Returns the root object, the new state, and the emitted events. -/
def create (s : UnionState) : Except PErr (Alias × UnionState × List Event) :=
  (choose s.cls).map (fun t =>
    let root : Alias := { ty := t, name := "", loaded := false }
    let s1 : UnionState := { s with value := some root, objects := some [] }
    let aliases := s.cls.fields_.map
      (fun f => ({ ty := f.ty, name := f.name, loaded := false } : Alias))
    (root, appendAll s1 aliases, [.rootCreated t]))

/-- The union.object property: the root object, created on first access. -/
def uobject (s : UnionState) : Except PErr (Alias × UnionState) :=
  match s.value with
  | some r => .ok (r, s)
  | none => (create s).map (fun p => (p.1, p.2.1))

/-- union.blocksize(): delegates to self.object.blocksize(). -/
def ublocksize (s : UnionState) : Except PErr Nat :=
  (uobject s).map (fun p => p.1.ty.blocksize)

/-- union.size(): delegates to self.object.size().  Modelled from the
spec: for the fixed-size external types used here the size() of an instance
equals its blocksize(). -/
def usize (s : UnionState) : Except PErr Nat :=
  (uobject s).map (fun p => p.1.ty.blocksize)

/-- The shared prefix of union.load and union.alloc: create the root
first when self.value is still None. -/
def ensureCreated (s : UnionState) : List Event × Except PErr UnionState :=
  match s.value with
  | some _ => ([], .ok s)
  | none =>
    match create s with
    | .error e => ([], .error e)
    | .ok (_, s2, evs) => (evs, .ok s2)

/-- map(operator.methodcaller(load, offset=0), self.__object__): load each
alias in order from the proxy at offset zero; a failing load raises. -/
def loadAliases (env : Env) : Nat → List Alias → List Event × Except PErr (List Alias)
  | _, [] => ([], .ok [])
  | i, a :: rest =>
    if env.aliasOk i then
      let next := loadAliases env (i + 1) rest
      (.aliasLoaded i a.name :: next.1,
       next.2.map (fun l => { a with loaded := true } :: l))
    else ([], .error .userError)

/-- Mark the root object as loaded (the effect of a successful root
load or alloc on self.value[0]). -/
def markRootLoaded (s : UnionState) : UnionState :=
  { s with value := s.value.map (fun r => { r with loaded := true }) }

/-- union.load: create the root if needed, perform the load of the root itself
with the given attributes, then reload every registered alias from the
proxy at local offset zero. -/
def uload (env : Env) (s : UnionState) : List Event × Except PErr UnionState :=
  match ensureCreated s with
  | (evs, .error e) => (evs, .error e)
  | (evs, .ok s1) =>
    if env.rootOk then
      let s2 := markRootLoaded s1
      let res := loadAliases env 0 (s2.objects.getD [])
      match res.2 with
      | .error e => (evs ++ .rootLoaded :: res.1, .error e)
      | .ok objs => (evs ++ .rootLoaded :: res.1, .ok { s2 with objects := some objs })
    else (evs, .error .userError)

/-- union.alloc: create the root if needed, perform the alloc of the root itself
with the given attributes, then reload every registered alias from the
proxy at local offset zero. -/
def ualloc (env : Env) (s : UnionState) : List Event × Except PErr UnionState :=
  match ensureCreated s with
  | (evs, .error e) => (evs, .error e)
  | (evs, .ok s1) =>
    if env.rootOk then
      let s2 := markRootLoaded s1
      let res := loadAliases env 0 (s2.objects.getD [])
      match res.2 with
      | .error e => (evs ++ .rootAlloc :: res.1, .error e)
      | .ok objs => (evs ++ .rootAlloc :: res.1, .ok { s2 with objects := some objs })
    else (evs, .error .userError)

/-- _union_generic.__getindex__: look the lowercased name up in the table;
a miss raises KeyError. -/
def getindex (s : UnionState) (name : String) : Except PErr Nat :=
  match dictGet s.fastindex (pyLower name) with
  | some i => .ok i
  | none => .error (.keyError (pyLower name))

/-- union.__getitem__: resolve the name to an alias, then force the lazy
load with result.li; an error.UserError from that load is logged with
Log.warning and swallowed, and the alias is returned unloaded. -/
def ugetitem (env : Env) (s : UnionState) (key : String) :
    List LogEvent × Except PErr (Alias × UnionState) :=
  match getindex s key with
  | .error e => ([], .error e)
  | .ok i =>
    match (s.objects.getD [])[i]? with
    | none => ([], .error .indexError)
    | some a =>
      if a.loaded then ([], .ok (a, s))
      else if env.aliasOk i then
        let a2 : Alias := { a with loaded := true }
        ([], .ok (a2, { s with objects := some ((s.objects.getD []).set i a2) }))
      else ([.warningGetitem], .ok (a, s))

/-- An ancestor object in a containment chain, identified by its offset
(getoffset()).  walk() yields the chain from the instance outward, so the
outermost ancestor is the last element. -/
structure Anc where
  offset : Int
  deriving Repr, DecidableEq

/-- The default base-object selector that rpointer installs when no
selector argument is given: lambda s: list(s.walk())[-1], i.e. the last
element of the containment chain; indexing an empty list raises. -/
def defaultBaseObject (walk : List Anc) : Except PErr Anc :=
  match walk.getLast? with
  | some a => .ok a
  | none => .error .indexError

/-- dynamic.rpointer argument handling: the selector defaults to the
outermost-ancestor lambda when absent (or None). -/
def rpointerBaseObject (optional : Option (List Anc → Except PErr Anc)) :
    List Anc → Except PErr Anc :=
  match optional with
  | none => defaultBaseObject
  | some f => f

/-- Modelled from the spec: ptype.rpointer_t (outside src/) resolves a
relative pointer by adding the decoded raw integer to the offset of the
object produced by the configured base-object selector. -/
def rpointerResolve (sel : List Anc → Except PErr Anc) (walk : List Anc) (raw : Int) :
    Except PErr Int :=
  (sel walk).map (fun a => raw + a.offset)

/-- C8: block(size) yields a descriptor whose computed size equals size
for every non-negative integer size; a negative integer size is clamped
to zero with a diagnostic log record; a non-integer size raises
error.UserError (the InvalidArgument of the spec) at construction time. -/
theorem block_size_validation (n : Int) (fl : PyFloat) :
    (0 ≤ n → block (.vint n) = ([], .ok (.pblock n.toNat)) ∧ ((n.toNat : Int) = n) ∧
      TypeDescr.blocksize (.pblock n.toNat) = n.toNat) ∧
    (n < 0 → block (.vint n) = ([.errorClampBlock], .ok (.pblock 0))) ∧
    block (.vfloat fl) = ([], .error .userError) := by
  refine ⟨fun h => ⟨?_, Int.toNat_of_nonneg h, rfl⟩, fun h => ?_, ?_⟩
  · simp [block, isIntegral, Int.not_lt.mpr h]
  · simp [block, isIntegral, h]
  · simp [block, isIntegral]

/-- Witness for C8 at concrete inputs: sizes 7, -3 and the float 2.5. -/
theorem block_size_validation_witness :
    block (.vint 7) = ([], .ok (.pblock 7)) ∧
    block (.vint (-3)) = ([.errorClampBlock], .ok (.pblock 0)) ∧
    block (.vfloat ⟨5, 1⟩) = ([], .error .userError) := by
  refine ⟨?_, ?_, ?_⟩
  · exact ((block_size_validation 7 ⟨5, 1⟩).1 (by decide)).1
  · exact (block_size_validation (-3) ⟨5, 1⟩).2.1 (by decide)
  · exact (block_size_validation 7 ⟨5, 1⟩).2.2

/-- C5 fails on the code: dynamic.array coerces with int(count) before
its integrality check (the check is dead code), so the float count 2.5 is
silently truncated to 2 and accepted, while dynamic.block raises
error.UserError for the same non-integer argument.  Count is therefore
not validated identically to size. -/
theorem array_accepts_float_count :
    array ⟨0, false⟩ uint32_t (.vfloat ⟨5, 1⟩) = ([], .ok (.parrayT uint32_t 2)) ∧
    block (.vfloat ⟨5, 1⟩) = ([], .error .userError) ∧
    pyInt (.vfloat ⟨5, 1⟩) = 2 := by
  refine ⟨?_, ?_, ?_⟩ <;> rfl

/-- C9: with a positive configured maximum count that the requested count
exceeds, the single boolean flag break_on_max_count selects the outcome —
true gives a fatal log then error.UserError, false gives a warning log
and a descriptor carrying the requested count. -/
theorem array_max_count_flag (cfg : Config) (t : TypeDescr) (n : Int)
    (hmax : 0 < cfg.maxCount) (hn : cfg.maxCount < n) :
    (cfg.breakOnMaxCount = true →
      array cfg t (.vint n) = ([.fatalMaxCount], .error .userError)) ∧
    (cfg.breakOnMaxCount = false →
      array cfg t (.vint n) = ([.warnMaxCount], .ok (.parrayT t n.toNat))) := by
  have h0 : ¬ (n < 0) := by omega
  have ht : ((n.toNat : Int)) = n := Int.toNat_of_nonneg (by omega)
  constructor <;> intro hb <;>
    simp [array, pyInt, h0, hb, ht, hmax, hn]

/-- Witness for C9 with maximum 10 and requested count 11, in both flag
positions. -/
theorem array_max_count_flag_witness :
    array ⟨10, true⟩ uint8_t (.vint 11) = ([.fatalMaxCount], .error .userError) ∧
    array ⟨10, false⟩ uint8_t (.vint 11) = ([.warnMaxCount], .ok (.parrayT uint8_t 11)) := by
  constructor
  · exact (array_max_count_flag ⟨10, true⟩ uint8_t 11 (by decide) (by decide)).1 rfl
  · exact (array_max_count_flag ⟨10, false⟩ uint8_t 11 (by decide) (by decide)).2 rfl

/-- C4 as stated fails on the code: align computes (-offset) & (size - 1),
which is the minimal padding only for power-of-two moduli.  For modulus 3
after a 5-byte prefix the code yields 2, which does not even reach a
multiple of 3, while 1 byte does. -/
theorem align_counterexample_mod3 :
    alignBlocksize 3 (some ⟨0, [5], some 1⟩) = 2 ∧
    ((5 + 2) % 3 ≠ 0 ∧ (5 + 1) % 3 = 0 ∧ (1 : Int) < 2) := by
  constructor
  · have h1 : alignBlocksize 3 (some ⟨0, [5], some 1⟩) = Int.ofNat (Nat.ldiff 2 4) := rfl
    have h2 : Nat.ldiff 2 4 = 2 := by simp [Nat.ldiff, Nat.bitwise]
    rw [h1, h2]
    rfl
  · refine ⟨by decide, by decide, by decide⟩

/-- C4 amended: for every power-of-two modulus 2 ^ k, the padding size of
an attached align element is non-negative, brings the offset of the element
(the container offset plus the blocksizes of the preceding siblings) to a
multiple of the modulus, and is minimal among all non-negative paddings
doing so; an element without a containing parent computes size zero. -/
theorem align_pow2_minimal_padding (k : Nat) (c : AlignCtx) (idx o : Nat)
    (hidx : c.selfIdx = some idx) (ho : o = c.parentOffset + (c.siblings.take idx).sum) :
    (0 ≤ alignBlocksize ((2 : Int) ^ k) (some c) ∧
     ((o : Int) + alignBlocksize ((2 : Int) ^ k) (some c)) % (2 : Int) ^ k = 0 ∧
     (∀ j : Int, 0 ≤ j → ((o : Int) + j) % (2 : Int) ^ k = 0 →
        alignBlocksize ((2 : Int) ^ k) (some c) ≤ j)) ∧
    alignBlocksize ((2 : Int) ^ k) none = 0 := by
  have hP : (0 : Int) < (2 : Int) ^ k := by positivity
  have hval : alignBlocksize ((2 : Int) ^ k) (some c) =
      (-(o : Int)) % (2 : Int) ^ k := by
    simp only [alignBlocksize, hidx, ← ho]
    exact land_neg_mask k o
  refine ⟨⟨?_, ?_, ?_⟩, rfl⟩
  · rw [hval]
    exact Int.emod_nonneg _ (ne_of_gt hP)
  · rw [hval]
    have hgen : ∀ o : Int, (o + (-o) % (2 : Int) ^ k) % (2 : Int) ^ k = 0 := by
      intro o
      rw [Int.add_emod, Int.emod_emod_of_dvd _ dvd_rfl, ← Int.add_emod]
      simp
    exact hgen _
  · intro j hj hmod
    rw [hval]
    have h1 : j % (2 : Int) ^ k = (-(o : Int)) % (2 : Int) ^ k := by
      rw [Int.emod_eq_emod_iff_emod_sub_eq_zero]
      have h2 : j - -(o : Int) = (o : Int) + j := by ring
      rw [h2]
      exact hmod
    rw [← h1]
    have h3 := Int.ediv_add_emod j ((2 : Int) ^ k)
    have h4 : 0 ≤ j / (2 : Int) ^ k := Int.ediv_nonneg hj (le_of_lt hP)
    have h5 : 0 ≤ (2 : Int) ^ k * (j / (2 : Int) ^ k) := mul_nonneg (le_of_lt hP) h4
    linarith

/-- Witness for C4 amended at the two examples of the spec: modulus 4
gives padding 3 after a 5-byte prefix and padding 0 after an 8-byte
prefix. -/
theorem align_pow2_minimal_padding_witness :
    alignBlocksize ((2 : Int) ^ 2) (some ⟨0, [5], some 1⟩) = 3 ∧
    alignBlocksize ((2 : Int) ^ 2) (some ⟨0, [8], some 1⟩) = 0 := by
  have h1 := (align_pow2_minimal_padding 2 ⟨0, [5], some 1⟩ 1 5 rfl (by decide)).1
  have h2 := (align_pow2_minimal_padding 2 ⟨0, [8], some 1⟩ 1 8 rfl (by decide)).1
  constructor
  · have ha := h1.1
    have hb := h1.2.1
    have hc := h1.2.2 3 (by decide) (by decide)
    omega
  · have ha := h2.1
    have hb := h2.2.2 0 (by decide) (by decide)
    omega

theorem dictGet_insert_same (d : List (String × Nat)) (k : String) (v : Nat) :
    dictGet (dictInsert d k v) k = some v := by
  induction d with
  | nil => simp [dictInsert, dictGet]
  | cons p rest ih =>
    by_cases h : p.1 = k
    · simp [dictInsert, dictGet, h]
    · simp only [dictInsert, dictGet] at ih ⊢
      simp [h, List.find?, ih]

theorem dictGet_insert_other (d : List (String × Nat)) (k k2 : String) (v : Nat)
    (h : k2 ≠ k) : dictGet (dictInsert d k v) k2 = dictGet d k2 := by
  have hne : ∀ rest : List (String × Nat),
      List.find? (fun q : String × Nat => q.1 == k2) ((k, v) :: rest)
        = List.find? (fun q : String × Nat => q.1 == k2) rest := by
    intro rest
    refine List.find?_cons_of_neg _ ?_
    intro hh
    simp only [beq_iff_eq] at hh
    exact h hh.symm
  induction d with
  | nil =>
    simp only [dictInsert, dictGet, hne]
  | cons p rest ih =>
    by_cases hp : p.1 = k
    · have hb : (p.1 == k) = true := by simp [hp]
      have hpk2 : List.find? (fun q : String × Nat => q.1 == k2) (p :: rest)
          = List.find? (fun q : String × Nat => q.1 == k2) rest := by
        refine List.find?_cons_of_neg _ ?_
        intro hh
        simp only [beq_iff_eq] at hh
        exact h (hh.symm.trans hp)
      simp only [dictInsert, hb, if_true, dictGet, hne, hpk2]
    · have hb : (p.1 == k) = false := by simp [hp]
      simp only [dictInsert, hb, Bool.false_eq_true, if_false, dictGet] at ih ⊢
      by_cases hq : ((fun q : String × Nat => q.1 == k2) p) = true
      · have h1 : List.find? (fun q : String × Nat => q.1 == k2) (p :: dictInsert rest k v)
            = some p := List.find?_cons_of_pos _ hq
        have h2 : List.find? (fun q : String × Nat => q.1 == k2) (p :: rest)
            = some p := List.find?_cons_of_pos _ hq
        rw [h1, h2]
      · have h1 : List.find? (fun q : String × Nat => q.1 == k2) (p :: dictInsert rest k v)
            = List.find? (fun q : String × Nat => q.1 == k2) (dictInsert rest k v) :=
          List.find?_cons_of_neg _ hq
        have h2 : List.find? (fun q : String × Nat => q.1 == k2) (p :: rest)
            = List.find? (fun q : String × Nat => q.1 == k2) rest :=
          List.find?_cons_of_neg _ hq
        rw [h1, h2, ih]

/-- The table index the claim predicts: the position of the most recently
appended alias whose lowercased name equals the key. -/
def lastIdx? : List Alias → String → Option Nat
  | [], _ => none
  | a :: rest, key =>
    match lastIdx? rest key with
    | some j => some (j + 1)
    | none => if pyLower a.name == key then some 0 else none

theorem appendAll_value (l : List Alias) : ∀ s : UnionState, (appendAll s l).value = s.value := by
  induction l with
  | nil => intro s; rfl
  | cons a rest ih => intro s; exact ih (uappend s a).1

theorem appendAll_cls (l : List Alias) : ∀ s : UnionState, (appendAll s l).cls = s.cls := by
  induction l with
  | nil => intro s; rfl
  | cons a rest ih => intro s; exact ih (uappend s a).1

theorem appendAll_objects (l : List Alias) :
    ∀ (s : UnionState) (objs : List Alias), s.objects = some objs →
      (appendAll s l).objects = some (objs ++ l) := by
  induction l with
  | nil => intro s objs h; simpa using h
  | cons a rest ih =>
    intro s objs h
    have h2 : (uappend s a).1.objects = some (objs ++ [a]) := by simp [uappend, h]
    have h3 := ih (uappend s a).1 (objs ++ [a]) h2
    simpa using h3

/-- The lookup table after a sequence of __append__ calls: a key bound by
one of the appended aliases maps to the absolute index of the most
recent alias bearing it (last write wins); other keys keep their prior
binding. -/
theorem dictGet_appendAll (l : List Alias) :
    ∀ (s : UnionState) (key : String),
      dictGet (appendAll s l).fastindex key =
        (match lastIdx? l key with
         | some j => some ((s.objects.getD []).length + j)
         | none => dictGet s.fastindex key) := by
  induction l with
  | nil => intro s key; simp [appendAll, lastIdx?]
  | cons a rest ih =>
    intro s key
    show dictGet (appendAll (uappend s a).1 rest).fastindex key = _
    rw [ih]
    have hlen : ((uappend s a).1.objects.getD []).length = (s.objects.getD []).length + 1 := by
      simp [uappend]
    have hfast : (uappend s a).1.fastindex =
        dictInsert s.fastindex (pyLower a.name) (s.objects.getD []).length := rfl
    rcases hL : lastIdx? rest key with _ | j
    · by_cases hk : pyLower a.name = key
      · subst hk
        simp [lastIdx?, hL, hfast, dictGet_insert_same]
      · have hne : key ≠ pyLower a.name := fun hh => hk hh.symm
        simp [lastIdx?, hL, hfast, dictGet_insert_other _ _ _ _ hne, hk]
    · simp [lastIdx?, hL, hlen]
      omega

theorem lastIdx?_isSome_of_mem (l : List Alias) (a : Alias) (h : a ∈ l) :
    (lastIdx? l (pyLower a.name)).isSome = true := by
  induction l with
  | nil => cases h
  | cons b rest ih =>
    rcases List.mem_cons.mp h with hb | hr
    · subst hb
      rcases hL : lastIdx? rest (pyLower a.name) with _ | j
      · simp [lastIdx?, hL]
      · simp [lastIdx?, hL]
    · have hs := ih hr
      rcases hL : lastIdx? rest (pyLower a.name) with _ | j
      · rw [hL] at hs
        simp at hs
      · simp [lastIdx?, hL]

/-- C7: registering union aliases keeps the lookup-table invariant — the
table maps each key to the absolute index of the most recently appended
alias whose lowercased name is that key, so a duplicate name overwrites
the earlier entry, untouched keys keep their previous binding, and no
append ever fails (uappend and appendAll are total functions). -/
theorem union_fastindex_last_write_wins (l : List Alias) (s : UnionState) (key : String) :
    (dictGet (appendAll s l).fastindex key =
      (match lastIdx? l key with
       | some j => some ((s.objects.getD []).length + j)
       | none => dictGet s.fastindex key)) ∧
    (∀ a : Alias,
      dictGet (uappend s a).1.fastindex (pyLower a.name) =
        some (s.objects.getD []).length ∧
      (∀ k2, k2 ≠ pyLower a.name →
        dictGet (uappend s a).1.fastindex k2 = dictGet s.fastindex k2)) := by
  refine ⟨dictGet_appendAll l s key, fun a => ⟨?_, fun k2 hk2 => ?_⟩⟩
  · exact dictGet_insert_same _ _ _
  · exact dictGet_insert_other _ _ _ _ hk2

/-- Witness for C7: appending a field named NUM after one named num
overwrites the table entry for the key num with the later index 1. -/
theorem union_fastindex_last_write_wins_witness :
    dictGet (appendAll (initUnion ⟨none, []⟩)
        [⟨uint32_t, ("num"), false⟩, ⟨uint16_t, ("NUM"), false⟩]).fastindex ("num")
      = some 1 := by
  have h := (union_fastindex_last_write_wins
      [⟨uint32_t, ("num"), false⟩, ⟨uint16_t, ("NUM"), false⟩]
      (initUnion ⟨none, []⟩) ("num")).1
  have h2 : lastIdx? [⟨uint32_t, ("num"), false⟩, ⟨uint16_t, ("NUM"), false⟩] ("num")
      = some 1 := by decide
  rw [h2] at h
  simpa using h

/-- Evaluation of __create__ when the root choice succeeds. -/
theorem create_eq (s : UnionState) (t : TypeDescr) (h : choose s.cls = .ok t) :
    create s = .ok (⟨t, "", false⟩,
      appendAll { s with value := some ⟨t, "", false⟩, objects := some [] }
        (s.cls.fields_.map (fun f => ({ ty := f.ty, name := f.name, loaded := false } : Alias))),
      [.rootCreated t]) := by
  unfold create
  rw [h]
  rfl

/-- C10: on a freshly constructed union instance (no object access, alloc
or load yet) every name lookup fails with a KeyError — the table starts
empty — even for names declared in the field list; the table only gains
entries when __create__ builds the root storage and registers the
aliases, after which every declared field name resolves. -/
theorem union_fresh_lookup_keyerror (cls : UnionClass) (env : Env) (name : String)
    (fld : Field) (root : Alias) (s2 : UnionState) (evs : List Event)
    (hfld : fld ∈ cls.fields_) (hcreate : create (initUnion cls) = .ok (root, s2, evs)) :
    ugetitem env (initUnion cls) name = ([], .error (.keyError (pyLower name))) ∧
    getindex (initUnion cls) name = .error (.keyError (pyLower name)) ∧
    ∃ i, getindex s2 (fld.name) = .ok i := by
  refine ⟨rfl, rfl, ?_⟩
  cases hch : choose cls with
  | error e =>
    have hch2 : choose (initUnion cls).cls = .error e := hch
    have hbad : create (initUnion cls) = .error e := by
      unfold create
      rw [hch2]
      rfl
    rw [hbad] at hcreate
    exact absurd hcreate (by simp)
  | ok t =>
    have hch2 : choose (initUnion cls).cls = .ok t := hch
    have hc2 := create_eq (initUnion cls) t hch2
    rw [hc2] at hcreate
    simp only [Except.ok.injEq, Prod.mk.injEq] at hcreate
    obtain ⟨h1, h2, h3⟩ := hcreate
    rw [← h2]
    have hmem : ({ ty := fld.ty, name := fld.name, loaded := false } : Alias) ∈
        (initUnion cls).cls.fields_.map
          (fun f => ({ ty := f.ty, name := f.name, loaded := false } : Alias)) :=
      List.mem_map_of_mem _ hfld
    have hsome := lastIdx?_isSome_of_mem _ _ hmem
    obtain ⟨j, hj⟩ := Option.isSome_iff_exists.mp hsome
    dsimp only at hj
    have hd := dictGet_appendAll
      ((initUnion cls).cls.fields_.map
        (fun f => ({ ty := f.ty, name := f.name, loaded := false } : Alias)))
      { initUnion cls with value := some ⟨t, "", false⟩, objects := some [] }
      (pyLower fld.name)
    rw [hj] at hd
    refine ⟨0 + j, ?_⟩
    simp only [getindex, hd]
    simp [initUnion]

/-- Witness for C10: a union declaring a field named a signals KeyError
for the very name a before creation, and resolves it after creation. -/
theorem union_fresh_lookup_keyerror_witness :
    ugetitem ⟨true, fun _ => true⟩ (initUnion ⟨none, [⟨uint32_t, ("a")⟩]⟩) ("a")
      = ([], .error (.keyError ("a"))) ∧
    (∃ i, getindex (⟨⟨none, [⟨uint32_t, ("a")⟩]⟩, some ⟨.pblock 4, "", false⟩,
        some [⟨uint32_t, ("a"), false⟩], [(("a"), 0)]⟩ : UnionState) ("a") = .ok i) := by
  have h := union_fresh_lookup_keyerror ⟨none, [⟨uint32_t, ("a")⟩]⟩ ⟨true, fun _ => true⟩ ("a")
      ⟨uint32_t, ("a")⟩ ⟨.pblock 4, "", false⟩
      (⟨⟨none, [⟨uint32_t, ("a")⟩]⟩, some ⟨.pblock 4, "", false⟩,
        some [⟨uint32_t, ("a"), false⟩], [(("a"), 0)]⟩ : UnionState)
      [.rootCreated (.pblock 4)] (by decide) rfl
  have hlow : pyLower ("a") = ("a") := by decide
  refine ⟨?_, h.2.2⟩
  have h1 := h.1
  rw [hlow] at h1
  exact h1

/-- C2: union field access lowercases the name before lookup, so names
equal up to case resolve identically; a name missing from the table
signals KeyError to the caller; on a hit the alias is loaded lazily, and
when that lazy load fails the failure is logged and the alias is returned
in its unloaded state instead of the error propagating. -/
theorem union_getitem_cases (env : Env) (s : UnionState) (key : String) :
    (∀ key2, pyLower key = pyLower key2 → ugetitem env s key = ugetitem env s key2) ∧
    (dictGet s.fastindex (pyLower key) = none →
      ugetitem env s key = ([], .error (.keyError (pyLower key)))) ∧
    (∀ i a, dictGet s.fastindex (pyLower key) = some i →
      (s.objects.getD [])[i]? = some a →
      (a.loaded = true → ugetitem env s key = ([], .ok (a, s))) ∧
      (a.loaded = false → env.aliasOk i = true →
        ugetitem env s key = ([], .ok ({ a with loaded := true },
          { s with objects := some ((s.objects.getD []).set i { a with loaded := true }) }))) ∧
      (a.loaded = false → env.aliasOk i = false →
        ugetitem env s key = ([.warningGetitem], .ok (a, s)))) := by
  refine ⟨fun key2 h => ?_, fun h => ?_,
    fun i a hi ha => ⟨fun hl => ?_, fun hl hok => ?_, fun hl hok => ?_⟩⟩
  · simp only [ugetitem, getindex, h]
  · simp [ugetitem, getindex, h]
  · simp [ugetitem, getindex, hi, ha, hl]
  · simp [ugetitem, getindex, hi, ha, hl, hok]
  · simp [ugetitem, getindex, hi, ha, hl, hok]

/-- Witness for C2 on a one-field union state: the names VAL and val
resolve identically, a missing name gives KeyError, a failing lazy load
logs and returns the unloaded alias, a succeeding one returns the loaded
alias. -/
theorem union_getitem_cases_witness :
    ugetitem ⟨true, fun _ => false⟩
        (⟨⟨none, [⟨uint32_t, ("val")⟩]⟩, some ⟨.pblock 4, "", true⟩,
          some [⟨uint32_t, ("val"), false⟩], [(("val"), 0)]⟩ : UnionState) ("VAL")
      = ugetitem ⟨true, fun _ => false⟩
        (⟨⟨none, [⟨uint32_t, ("val")⟩]⟩, some ⟨.pblock 4, "", true⟩,
          some [⟨uint32_t, ("val"), false⟩], [(("val"), 0)]⟩ : UnionState) ("val") ∧
    ugetitem ⟨true, fun _ => false⟩
        (⟨⟨none, [⟨uint32_t, ("val")⟩]⟩, some ⟨.pblock 4, "", true⟩,
          some [⟨uint32_t, ("val"), false⟩], [(("val"), 0)]⟩ : UnionState) ("zz")
      = ([], .error (.keyError ("zz"))) ∧
    ugetitem ⟨true, fun _ => false⟩
        (⟨⟨none, [⟨uint32_t, ("val")⟩]⟩, some ⟨.pblock 4, "", true⟩,
          some [⟨uint32_t, ("val"), false⟩], [(("val"), 0)]⟩ : UnionState) ("val")
      = ([.warningGetitem], .ok (⟨uint32_t, ("val"), false⟩,
          ⟨⟨none, [⟨uint32_t, ("val")⟩]⟩, some ⟨.pblock 4, "", true⟩,
            some [⟨uint32_t, ("val"), false⟩], [(("val"), 0)]⟩)) ∧
    ugetitem ⟨true, fun _ => true⟩
        (⟨⟨none, [⟨uint32_t, ("val")⟩]⟩, some ⟨.pblock 4, "", true⟩,
          some [⟨uint32_t, ("val"), false⟩], [(("val"), 0)]⟩ : UnionState) ("val")
      = ([], .ok (⟨uint32_t, ("val"), true⟩,
          ⟨⟨none, [⟨uint32_t, ("val")⟩]⟩, some ⟨.pblock 4, "", true⟩,
            some [⟨uint32_t, ("val"), true⟩], [(("val"), 0)]⟩)) := by
  refine ⟨?_, ?_, ?_, ?_⟩
  · exact (union_getitem_cases ⟨true, fun _ => false⟩ _ ("VAL")).1 ("val") (by decide)
  · have h := (union_getitem_cases ⟨true, fun _ => false⟩
        (⟨⟨none, [⟨uint32_t, ("val")⟩]⟩, some ⟨.pblock 4, "", true⟩,
          some [⟨uint32_t, ("val"), false⟩], [(("val"), 0)]⟩ : UnionState) ("zz")).2.1
        (by decide)
    have hlow : pyLower ("zz") = ("zz") := by decide
    rw [hlow] at h
    exact h
  · exact ((union_getitem_cases ⟨true, fun _ => false⟩ _ ("val")).2.2 0
      ⟨uint32_t, ("val"), false⟩ (by decide) (by decide)).2.2 rfl rfl
  · have h := ((union_getitem_cases ⟨true, fun _ => true⟩
        (⟨⟨none, [⟨uint32_t, ("val")⟩]⟩, some ⟨.pblock 4, "", true⟩,
          some [⟨uint32_t, ("val"), false⟩], [(("val"), 0)]⟩ : UnionState) ("val")).2.2 0
        ⟨uint32_t, ("val"), false⟩ (by decide) (by decide)).2.1 rfl rfl
    simpa using h

theorem loadAliases_mem_alias (env : Env) :
    ∀ (i : Nat) (l : List Alias) (e : Event), e ∈ (loadAliases env i l).1 →
      ∃ j nm, e = Event.aliasLoaded j nm := by
  intro i l
  induction l generalizing i with
  | nil =>
    intro e he
    simp [loadAliases] at he
  | cons a rest ih =>
    intro e he
    by_cases hok : env.aliasOk i = true
    · simp only [loadAliases, hok, if_true] at he
      rcases List.mem_cons.mp he with h1 | h2
      · exact ⟨i, a.name, h1⟩
      · exact ih (i + 1) e h2
    · simp only [loadAliases, hok, Bool.false_eq_true, if_false] at he
      simp at he

theorem loadAliases_trace_allok (env : Env) (hok : ∀ i, env.aliasOk i = true) :
    ∀ (i : Nat) (l : List Alias),
      (loadAliases env i l).1
        = (List.enumFrom i l).map (fun p => Event.aliasLoaded p.1 p.2.name) := by
  intro i l
  induction l generalizing i with
  | nil => simp [loadAliases]
  | cons a rest ih => simp [loadAliases, hok i, List.enumFrom, ih (i + 1)]

theorem ensureCreated_trace (s : UnionState) :
    (ensureCreated s).1 = [] ∨ ∃ t, (ensureCreated s).1 = [Event.rootCreated t] := by
  cases hv : s.value with
  | some r =>
    left
    simp [ensureCreated, hv]
  | none =>
    cases hch : choose s.cls with
    | error e =>
      left
      have hbad : create s = .error e := by
        unfold create
        rw [hch]
        rfl
      simp [ensureCreated, hv, hbad]
    | ok t =>
      right
      refine ⟨t, ?_⟩
      have hc := create_eq s t hch
      simp [ensureCreated, hv, hc]

theorem uload_trace_eq (env : Env) (s : UnionState) (evs : List Event) (s1 : UnionState)
    (h : ensureCreated s = (evs, .ok s1)) (hro : env.rootOk = true) :
    (uload env s).1 = evs ++ Event.rootLoaded ::
      (loadAliases env 0 ((markRootLoaded s1).objects.getD [])).1 := by
  unfold uload
  rw [h]
  simp only [hro, if_true]
  rcases hres : loadAliases env 0 ((markRootLoaded s1).objects.getD []) with ⟨tr, r2⟩
  cases r2 <;> simp [hres]

theorem ualloc_trace_eq (env : Env) (s : UnionState) (evs : List Event) (s1 : UnionState)
    (h : ensureCreated s = (evs, .ok s1)) (hro : env.rootOk = true) :
    (ualloc env s).1 = evs ++ Event.rootAlloc ::
      (loadAliases env 0 ((markRootLoaded s1).objects.getD [])).1 := by
  unfold ualloc
  rw [h]
  simp only [hro, if_true]
  rcases hres : loadAliases env 0 ((markRootLoaded s1).objects.getD []) with ⟨tr, r2⟩
  cases r2 <;> simp [hres]

theorem uload_alias_after_root (env : Env) (s : UnionState)
    (h : ∃ i nm, Event.aliasLoaded i nm ∈ (uload env s).1) :
    ∃ pre suf, (uload env s).1 = pre ++ Event.rootLoaded :: suf ∧
      ∀ i nm, Event.aliasLoaded i nm ∉ pre := by
  obtain ⟨i0, nm0, hmem⟩ := h
  rcases hec : ensureCreated s with ⟨evs, res⟩
  have hnoal : ∀ i nm, Event.aliasLoaded i nm ∉ evs := by
    have ht := ensureCreated_trace s
    rw [hec] at ht
    rcases ht with h1 | ⟨t, h2⟩
    · simp only at h1
      rw [h1]
      intro i nm hx
      simp at hx
    · simp only at h2
      rw [h2]
      intro i nm hx
      simp at hx
  cases res with
  | error e =>
    have htr : (uload env s).1 = evs := by
      unfold uload
      rw [hec]
    rw [htr] at hmem
    exact absurd hmem (hnoal i0 nm0)
  | ok s1 =>
    by_cases hro : env.rootOk = true
    · refine ⟨evs, (loadAliases env 0 ((markRootLoaded s1).objects.getD [])).1,
        uload_trace_eq env s evs s1 hec hro, fun i nm => hnoal i nm⟩
    · have htr : (uload env s).1 = evs := by
        unfold uload
        rw [hec]
        simp [hro]
      rw [htr] at hmem
      exact absurd hmem (hnoal i0 nm0)

theorem ualloc_alias_after_root (env : Env) (s : UnionState)
    (h : ∃ i nm, Event.aliasLoaded i nm ∈ (ualloc env s).1) :
    ∃ pre suf, (ualloc env s).1 = pre ++ Event.rootAlloc :: suf ∧
      ∀ i nm, Event.aliasLoaded i nm ∉ pre := by
  obtain ⟨i0, nm0, hmem⟩ := h
  rcases hec : ensureCreated s with ⟨evs, res⟩
  have hnoal : ∀ i nm, Event.aliasLoaded i nm ∉ evs := by
    have ht := ensureCreated_trace s
    rw [hec] at ht
    rcases ht with h1 | ⟨t, h2⟩
    · simp only at h1
      rw [h1]
      intro i nm hx
      simp at hx
    · simp only at h2
      rw [h2]
      intro i nm hx
      simp at hx
  cases res with
  | error e =>
    have htr : (ualloc env s).1 = evs := by
      unfold ualloc
      rw [hec]
    rw [htr] at hmem
    exact absurd hmem (hnoal i0 nm0)
  | ok s1 =>
    by_cases hro : env.rootOk = true
    · refine ⟨evs, (loadAliases env 0 ((markRootLoaded s1).objects.getD [])).1,
        ualloc_trace_eq env s evs s1 hec hro, fun i nm => hnoal i nm⟩
    · have htr : (ualloc env s).1 = evs := by
        unfold ualloc
        rw [hec]
        simp [hro]
      rw [htr] at hmem
      exact absurd hmem (hnoal i0 nm0)

theorem enumFrom_map_alias (l : List Field) :
    ∀ i, (List.enumFrom i (l.map
        (fun f => ({ ty := f.ty, name := f.name, loaded := false } : Alias)))).map
          (fun p => Event.aliasLoaded p.1 p.2.name)
      = (List.enumFrom i l).map (fun p => Event.aliasLoaded p.1 p.2.name) := by
  induction l with
  | nil => intro i; rfl
  | cons f rest ih => intro i; simp [List.enumFrom, ih]

theorem uload_no_recreate (env : Env) (s : UnionState) (r : Alias) (hv : s.value = some r)
    (t : TypeDescr) : Event.rootCreated t ∉ (uload env s).1 := by
  have hec : ensureCreated s = ([], .ok s) := by simp [ensureCreated, hv]
  by_cases hro : env.rootOk = true
  · rw [uload_trace_eq env s [] s hec hro]
    intro hmem
    simp only [List.nil_append, List.mem_cons] at hmem
    rcases hmem with h1 | h2
    · exact absurd h1 (by simp)
    · obtain ⟨j, nm, hj⟩ := loadAliases_mem_alias env 0 _ _ h2
      exact absurd hj (by simp)
  · have htr : (uload env s).1 = [] := by
      unfold uload
      rw [hec]
      simp [hro]
    rw [htr]
    simp

theorem ualloc_no_recreate (env : Env) (s : UnionState) (r : Alias) (hv : s.value = some r)
    (t : TypeDescr) : Event.rootCreated t ∉ (ualloc env s).1 := by
  have hec : ensureCreated s = ([], .ok s) := by simp [ensureCreated, hv]
  by_cases hro : env.rootOk = true
  · rw [ualloc_trace_eq env s [] s hec hro]
    intro hmem
    simp only [List.nil_append, List.mem_cons] at hmem
    rcases hmem with h1 | h2
    · exact absurd h1 (by simp)
    · obtain ⟨j, nm, hj⟩ := loadAliases_mem_alias env 0 _ _ h2
      exact absurd hj (by simp)
  · have htr : (ualloc env s).1 = [] := by
      unfold ualloc
      rw [hec]
      simp [hro]
    rw [htr]
    simp

/-- C3: union.load and union.alloc create the root first when it does not
yet exist and materialize the aliases only afterwards — in every trace an
alias load event sits strictly after the root materialization event — and
on a fresh union with an all-successful environment the trace is exactly
root creation, root materialization, then every alias in declaration
order. -/
theorem union_load_alloc_order (env : Env) (s : UnionState) :
    ((∃ i nm, Event.aliasLoaded i nm ∈ (uload env s).1) →
      ∃ pre suf, (uload env s).1 = pre ++ Event.rootLoaded :: suf ∧
        ∀ i nm, Event.aliasLoaded i nm ∉ pre) ∧
    ((∃ i nm, Event.aliasLoaded i nm ∈ (ualloc env s).1) →
      ∃ pre suf, (ualloc env s).1 = pre ++ Event.rootAlloc :: suf ∧
        ∀ i nm, Event.aliasLoaded i nm ∉ pre) ∧
    (∀ cls t, s = initUnion cls → choose cls = .ok t → env.rootOk = true →
      (∀ i, env.aliasOk i = true) →
      (uload env s).1 = Event.rootCreated t :: Event.rootLoaded ::
        (List.enumFrom 0 cls.fields_).map (fun p => Event.aliasLoaded p.1 p.2.name) ∧
      (ualloc env s).1 = Event.rootCreated t :: Event.rootAlloc ::
        (List.enumFrom 0 cls.fields_).map (fun p => Event.aliasLoaded p.1 p.2.name)) := by
  refine ⟨uload_alias_after_root env s, ualloc_alias_after_root env s, ?_⟩
  intro cls t hs hch hro hok
  subst hs
  have hch2 : choose (initUnion cls).cls = .ok t := hch
  have hc := create_eq (initUnion cls) t hch2
  have hvi : (initUnion cls).value = none := rfl
  have hec : ensureCreated (initUnion cls) = ([Event.rootCreated t],
      .ok (appendAll { initUnion cls with value := some ⟨t, "", false⟩, objects := some [] }
        ((initUnion cls).cls.fields_.map
          (fun f => ({ ty := f.ty, name := f.name, loaded := false } : Alias))))) := by
    simp [ensureCreated, hvi, hc]
  have hobj : (markRootLoaded (appendAll
      { initUnion cls with value := some ⟨t, "", false⟩, objects := some [] }
      ((initUnion cls).cls.fields_.map
        (fun f => ({ ty := f.ty, name := f.name, loaded := false } : Alias))))).objects.getD []
      = (initUnion cls).cls.fields_.map
          (fun f => ({ ty := f.ty, name := f.name, loaded := false } : Alias)) := by
    have h1 := appendAll_objects
      ((initUnion cls).cls.fields_.map
        (fun f => ({ ty := f.ty, name := f.name, loaded := false } : Alias)))
      { initUnion cls with value := some ⟨t, "", false⟩, objects := some [] } [] rfl
    show (appendAll { initUnion cls with value := some ⟨t, "", false⟩, objects := some [] }
      ((initUnion cls).cls.fields_.map
        (fun f => ({ ty := f.ty, name := f.name, loaded := false } : Alias)))).objects.getD [] = _
    rw [h1]
    simp
  constructor
  · rw [uload_trace_eq env (initUnion cls) _ _ hec hro, hobj,
      loadAliases_trace_allok env hok 0, enumFrom_map_alias]
    rfl
  · rw [ualloc_trace_eq env (initUnion cls) _ _ hec hro, hobj,
      loadAliases_trace_allok env hok 0, enumFrom_map_alias]
    rfl

/-- Witness for C3: a fresh two-field union loaded (and allocated) with
every load succeeding produces exactly the trace root creation, root
materialization, alias 0, alias 1. -/
theorem union_load_alloc_order_witness :
    (uload ⟨true, fun _ => true⟩ (initUnion ⟨none, [⟨uint32_t, ("a")⟩, ⟨uint16_t, ("b")⟩]⟩)).1
      = [Event.rootCreated (.pblock 4), Event.rootLoaded,
         Event.aliasLoaded 0 ("a"), Event.aliasLoaded 1 ("b")] ∧
    (ualloc ⟨true, fun _ => true⟩ (initUnion ⟨none, [⟨uint32_t, ("a")⟩, ⟨uint16_t, ("b")⟩]⟩)).1
      = [Event.rootCreated (.pblock 4), Event.rootAlloc,
         Event.aliasLoaded 0 ("a"), Event.aliasLoaded 1 ("b")] := by
  have h := (union_load_alloc_order ⟨true, fun _ => true⟩
      (initUnion ⟨none, [⟨uint32_t, ("a")⟩, ⟨uint16_t, ("b")⟩]⟩)).2.2
      ⟨none, [⟨uint32_t, ("a")⟩, ⟨uint16_t, ("b")⟩]⟩ (.pblock 4) rfl rfl rfl
      (fun i => rfl)
  exact ⟨h.1.trans (by decide), h.2.trans (by decide)⟩

/-- C1: a union class with a non-empty field list and no explicit root
chooses, once at first creation, a plain block whose length is the
maximum blocksize over one instantiation of each field type, and size()
and blocksize() delegate to that root view; a second access or a load
never re-creates the root. -/
theorem union_chooses_max_block (cls : UnionClass) (f : Field) (fs : List Field)
    (hv : cls.value_ = none) (hf : cls.fields_ = f :: fs) :
    choose cls = .ok (.pblock ((fs.map (fun g => g.ty.blocksize)).foldl Nat.max f.ty.blocksize)) ∧
    ublocksize (initUnion cls) =
      .ok ((fs.map (fun g => g.ty.blocksize)).foldl Nat.max f.ty.blocksize) ∧
    usize (initUnion cls) =
      .ok ((fs.map (fun g => g.ty.blocksize)).foldl Nat.max f.ty.blocksize) ∧
    (∀ root s2, uobject (initUnion cls) = .ok (root, s2) →
      root.ty = .pblock ((fs.map (fun g => g.ty.blocksize)).foldl Nat.max f.ty.blocksize) ∧
      s2.value = some root ∧
      ublocksize s2 = .ok root.ty.blocksize ∧
      usize s2 = .ok root.ty.blocksize ∧
      (∀ env t, Event.rootCreated t ∉ (uload env s2).1) ∧
      (∀ env t, Event.rootCreated t ∉ (ualloc env s2).1)) := by
  have hmax : pyMax (cls.fields_.map (fun g => g.ty.blocksize)) =
      .ok ((fs.map (fun g => g.ty.blocksize)).foldl Nat.max f.ty.blocksize) := by
    rw [hf]
    rfl
  have hch : choose cls =
      .ok (.pblock ((fs.map (fun g => g.ty.blocksize)).foldl Nat.max f.ty.blocksize)) := by
    simp [choose, hv, hmax, Except.map]
  have hch2 : choose (initUnion cls).cls =
      .ok (.pblock ((fs.map (fun g => g.ty.blocksize)).foldl Nat.max f.ty.blocksize)) := hch
  have hc := create_eq (initUnion cls) _ hch2
  have hob : uobject (initUnion cls) =
      .ok (⟨.pblock ((fs.map (fun g => g.ty.blocksize)).foldl Nat.max f.ty.blocksize), "", false⟩,
        appendAll { initUnion cls with
            value := some ⟨.pblock ((fs.map (fun g => g.ty.blocksize)).foldl Nat.max
              f.ty.blocksize), "", false⟩,
            objects := some [] }
          ((initUnion cls).cls.fields_.map
            (fun g => ({ ty := g.ty, name := g.name, loaded := false } : Alias)))) := by
    have hvi : (initUnion cls).value = none := rfl
    simp [uobject, hvi, hc, Except.map]
  refine ⟨hch, ?_, ?_, ?_⟩
  · simp [ublocksize, hob, TypeDescr.blocksize, Except.map]
  · simp [usize, hob, TypeDescr.blocksize, Except.map]
  · intro root s2 h
    rw [hob] at h
    simp only [Except.ok.injEq, Prod.mk.injEq] at h
    obtain ⟨h1, h2⟩ := h
    have hval : s2.value = some root := by
      rw [← h2, ← h1]
      exact appendAll_value _ _
    refine ⟨by rw [← h1], hval, ?_, ?_, ?_, ?_⟩
    · simp [ublocksize, uobject, hval, Except.map]
    · simp [usize, uobject, hval, Except.map]
    · intro env t
      exact uload_no_recreate env s2 root hval t
    · intro env t
      exact ualloc_no_recreate env s2 root hval t

/-- Witness for C1 at the field list of the spec example: uint32, uint16,
uint8 give a root block of length 4 and union blocksize and size 4. -/
theorem union_chooses_max_block_witness :
    choose ⟨none, [⟨uint32_t, ("a")⟩, ⟨uint16_t, ("b")⟩, ⟨uint8_t, ("c")⟩]⟩
      = .ok (.pblock 4) ∧
    ublocksize (initUnion ⟨none, [⟨uint32_t, ("a")⟩, ⟨uint16_t, ("b")⟩, ⟨uint8_t, ("c")⟩]⟩)
      = .ok 4 ∧
    usize (initUnion ⟨none, [⟨uint32_t, ("a")⟩, ⟨uint16_t, ("b")⟩, ⟨uint8_t, ("c")⟩]⟩)
      = .ok 4 := by
  have h := union_chooses_max_block
      ⟨none, [⟨uint32_t, ("a")⟩, ⟨uint16_t, ("b")⟩, ⟨uint8_t, ("c")⟩]⟩
      ⟨uint32_t, ("a")⟩ [⟨uint16_t, ("b")⟩, ⟨uint8_t, ("c")⟩] rfl rfl
  exact ⟨h.1.trans rfl, h.2.1.trans rfl, h.2.2.1.trans rfl⟩

/-- C6: rpointer built without a base-object argument installs the
selector taking the last element of walk() — the outermost ancestor — and
resolution adds the decoded raw value to the offset of that ancestor. -/
theorem rpointer_default_outermost (walk : List Anc) (a : Anc) (raw : Int)
    (h : walk.getLast? = some a) :
    rpointerBaseObject none walk = .ok a ∧
    rpointerResolve (rpointerBaseObject none) walk raw = .ok (raw + a.offset) := by
  have h1 : rpointerBaseObject none walk = .ok a := by
    simp [rpointerBaseObject, defaultBaseObject, h]
  exact ⟨h1, by simp [rpointerResolve, h1, Except.map]⟩

/-- Witness for C6: raw value 4 with the outermost ancestor at offset 0
resolves to absolute offset 4 (an inner ancestor at offset 16 is not the
one selected). -/
theorem rpointer_default_outermost_witness :
    rpointerResolve (rpointerBaseObject none) [⟨16⟩, ⟨0⟩] 4 = .ok 4 := by
  have h := (rpointer_default_outermost [⟨16⟩, ⟨0⟩] ⟨0⟩ 4 (by decide)).2
  simpa using h

end Ptypes
